import Mathlib

/-!
# Micro-RLE: drift-aware RLE + XOR-delta stream compressor

A shallow embedding of `micro_rle.c` (the encoder: `log_init`, `log_byte`,
`log_flush`) and of the reference decoder `decode` of `test_rle.c`.

Bytes (`uint8_t`) are natural numbers; every place where the C code stores a
value into an 8-bit object is written with an explicit `% 256`.  The output
sink `emit` is modelled by the list of bytes passed to it, in call order.
-/

namespace MicroRLE

/-! ## Tunables (`micro_rle.c`, lines 12-17) -/

/-- Window size `WIN`. -/
def WIN : Nat := 32
/-- Index mask `WIN_MSK`. -/
def WIN_MSK : Nat := 31
/-- Drift threshold `STUFF_TH`. -/
def STUFF_TH : Nat := 2
/-- Run cap `RLE_MAX`. -/
def RLE_MAX : Nat := 7
/-- Marker byte `STUFF_BYTE`. -/
def STUFF_BYTE : Nat := 0x7E

/-! ## Encoder state (`static struct s`) -/

/-- The encoder state `s`: all five fields are `uint8_t` objects in the source. -/
structure State where
  prev : Nat
  run : Nat
  window : List Nat
  widx : Nat
  last_stuff : Nat
deriving DecidableEq

/-- Helper `popcnt`: the three masked-add rounds, each stored back into a `uint8_t`. -/
def popcnt (x : Nat) : Nat :=
  let x1 := ((x &&& 0x55) + ((x >>> 1) &&& 0x55)) % 256
  let x2 := ((x1 &&& 0x33) + ((x1 >>> 2) &&& 0x33)) % 256
  ((x2 &&& 0x0F) + (x2 >>> 4)) % 256

/-- State after `log_init()`: every field zero, the window cleared. -/
def log_init : State :=
  { prev := 0, run := 0, window := List.replicate WIN 0, widx := 0, last_stuff := 0 }

/-- Step 1 of `log_byte`: `s.window[s.widx & WIN_MSK] = curr; s.widx++;`
(the increment wraps, `widx` being a `uint8_t`). -/
def window_update (s : State) (curr : Nat) : State :=
  { s with window := s.window.set (s.widx &&& WIN_MSK) curr, widx := (s.widx + 1) % 256 }

/-- The divergence loop of `log_byte` (lines 57-62): sixteen XOR + popcount
operations accumulated into the `uint8_t` variable `drift`.  The loop runs only
under `s.widx >= WIN` (see `drift_step`), where neither subtraction goes below
zero. -/
def drift_score (s : State) : Nat :=
  let h1_start := ((s.widx - WIN) &&& WIN_MSK) % 256
  let h2_start := ((s.widx - WIN / 2) &&& WIN_MSK) % 256
  (List.range (WIN / 2)).foldl
    (fun drift i =>
      (drift + popcnt (s.window.getD ((h1_start + i) &&& WIN_MSK) 0 ^^^
                       s.window.getD ((h2_start + i) &&& WIN_MSK) 0)) % 256)
    0

/-- Step 2 of `log_byte` (lines 56-69), run after the window update: the new
state and the bytes emitted by the drift trigger (`[STUFF_BYTE]` or nothing). -/
def drift_step (s : State) : State × List Nat :=
  if s.widx ≥ WIN then
    if drift_score s > STUFF_TH ∧ s.last_stuff = 0 then
      ({ s with last_stuff := 1 }, [STUFF_BYTE])
    else
      ({ s with last_stuff := 0 }, [])
  else
    (s, [])

/-- Step 3 of `log_byte` (lines 72-89): run-length / XOR-delta packing. -/
def rle_step (s : State) (curr : Nat) : State × List Nat :=
  let delta := curr ^^^ s.prev
  if delta = 0 ∧ s.run < RLE_MAX then
    ({ s with run := (s.run + 1) % 256 }, [])
  else if delta > 0x1F then
    ({ s with prev := curr, run := 0 }, [((s.run <<< 5) ||| 0x1F) % 256, delta])
  else
    ({ s with prev := curr, run := 0 }, [((s.run <<< 5) ||| (delta &&& 0x1F)) % 256])

/-- One call `log_byte(curr)`: the argument is converted to `uint8_t`, then the
window update, the drift trigger and the packing step run in this order.  The
result is the new state and the bytes handed to `emit`, in order. -/
def log_byte (s : State) (curr : Nat) : State × List Nat :=
  let c := curr % 256
  let d := drift_step (window_update s c)
  let r := rle_step d.1 c
  (r.1, d.2 ++ r.2)

/-- One call `log_flush()`: emits the pending run, leaves the state unchanged. -/
def log_flush (s : State) : List Nat :=
  if s.run > 0 then [((s.run - 1) <<< 5) % 256] else []

/-- Feeding a sequence of bytes to `log_byte`, one call per byte. -/
def log_bytes : State → List Nat → State × List Nat
  | s, [] => (s, [])
  | s, b :: bs =>
    let r := log_byte s b
    let t := log_bytes r.1 bs
    (t.1, r.2 ++ t.2)

/-- The whole emitted stream for an input: `log_init`, `log_byte` on each byte,
`log_flush` (the call pattern of every test of `test_rle.c`). -/
def encode (bytes : List Nat) : List Nat :=
  let r := log_bytes log_init bytes
  r.2 ++ log_flush r.1

/-! ## Reference decoder (`decode`, `test_rle.c` lines 27-73) -/

/-- The copy loops of `decode`: `n` iterations of
`if (out_idx >= out_cap) return -1; out[out_idx++] = b;`.
`none` is the early `return -1`. -/
def put_copies (cap : Nat) (b : Nat) : Nat → List Nat → Option (List Nat)
  | 0, out => some out
  | n + 1, out => if out.length ≥ cap then none else put_copies cap b n (out ++ [b])

/-- The body of the decoder loop after escape resolution (lines 48-69): from
`run`, the resolved `delta`, `prev` and the bytes written so far, the new
`prev` and output, or `none` for `return -1`. -/
def decode_token (cap run delta prev : Nat) (out : List Nat) : Option (Nat × List Nat) :=
  if delta ≠ 0 then
    match put_copies cap prev run out with
    | none => none
    | some out1 =>
      let curr := prev ^^^ delta
      if out1.length ≥ cap then none else some (curr, out1 ++ [curr])
  else
    match put_copies cap prev (run + 1) out with
    | none => none
    | some out1 => some (prev, out1)

/-- The `while (in_idx < len)` loop of `decode` over the unread input, with the
current `prev` and the bytes written so far.  The last equation is an
iteration with at least one byte after the token, the middle one an iteration
on the final byte, where `in_idx < len` fails in the escape test. -/
def decode_loop (cap : Nat) : List Nat → Nat → List Nat → Option (List Nat)
  | [], _, out => some out
  | [token], prev, out =>
    if token = 0x7E then some out
    else
      let run := (token >>> 5) &&& 0x07
      let delta := token &&& 0x1F
      match decode_token cap run delta prev out with
      | none => none
      | some r => some r.2
  | token :: lit :: rest, prev, out =>
    if token = 0x7E then decode_loop cap (lit :: rest) prev out
    else
      let run := (token >>> 5) &&& 0x07
      let delta := token &&& 0x1F
      if delta = 0x1F then
        match decode_token cap run lit prev out with
        | none => none
        | some r => decode_loop cap rest r.1 r.2
      else
        match decode_token cap run delta prev out with
        | none => none
        | some r => decode_loop cap (lit :: rest) r.1 r.2

/-- The buffer contents `out[0 .. out_idx)` on a normal return of
`decode(in, len, out, out_cap)`; `none` when the call returns `-1`. -/
def decode_buf (inp : List Nat) (out_cap : Nat) : Option (List Nat) :=
  decode_loop out_cap inp 0 []

/-- The `int` returned by `decode`: `-1` or the final `out_idx`. -/
def decode (inp : List Nat) (out_cap : Nat) : Int :=
  match decode_buf inp out_cap with
  | none => -1
  | some out => (out.length : Int)

/-! ## Observation functions used to state the properties -/

/-- Per-call view of `log_bytes`: for each input byte, the bytes emitted by the
drift trigger of that `log_byte` call (markers) and the bytes emitted by its
packing step (token bytes). -/
def log_trace : State → List Nat → List (List Nat × List Nat)
  | _, [] => []
  | s, b :: bs =>
    let d := drift_step (window_update s (b % 256))
    (d.2, (rle_step d.1 (b % 256)).2) :: log_trace (log_byte s b).1 bs

/-- The flushes of `log_byte` along an input: for every call that reaches the
flush branch (line 78), the pair `(s.run, delta)` it packs. -/
def flush_log : State → List Nat → List (Nat × Nat)
  | _, [] => []
  | s, b :: bs =>
    let d := (drift_step (window_update s (b % 256))).1
    let delta := (b % 256) ^^^ d.prev
    if delta = 0 ∧ d.run < RLE_MAX then flush_log (log_byte s b).1 bs
    else (d.run, delta) :: flush_log (log_byte s b).1 bs

/-- Number of set bits among the eight bits of a byte. -/
def hamming_weight (b : Nat) : Nat :=
  (List.range 8).countP (fun k => b.testBit k)

/-- The divergence score in the words of the specification, on the list of all
input bytes seen so far: the sixteen bytes ending just before the most recent
sixteen are paired in order with the most recent sixteen, and the Hamming
weights of the XOR of each pair are summed. -/
def spec_divergence (xs : List Nat) : Nat :=
  ((List.range 16).map fun i =>
    hamming_weight (xs.getD (xs.length - 32 + i) 0 ^^^ xs.getD (xs.length - 16 + i) 0)).sum

/-- A stream made of complete decoder units only: markers, single tokens, and
escape tokens together with their literal byte (no escape token left without
its literal at the end). -/
def complete_units : List Nat → Bool
  | [] => true
  | [token] => decide (token = 0x7E ∨ token &&& 0x1F ≠ 0x1F)
  | token :: lit :: rest =>
    if token = 0x7E then complete_units (lit :: rest)
    else if token &&& 0x1F = 0x1F then complete_units rest
    else complete_units (lit :: rest)

/-- The bytes one token appends when capacity never runs out: `run` copies of
`prev` and the new byte for a non-zero `delta`, `run + 1` copies of `prev`
otherwise (lines 48-69 without the capacity tests). -/
def token_bytes (run delta prev : Nat) : List Nat :=
  if delta ≠ 0 then List.replicate run prev ++ [prev ^^^ delta]
  else List.replicate (run + 1) prev

/-- The decoder's `prev` after one token. -/
def token_prev (delta prev : Nat) : Nat :=
  if delta ≠ 0 then prev ^^^ delta else prev

/-- The decoder loop with the capacity tests removed: everything `decode` would
write from `prev` on the given input if the output buffer never filled up. -/
def decode_unbounded : List Nat → Nat → List Nat
  | [], _ => []
  | [token], prev =>
    if token = 0x7E then []
    else token_bytes ((token >>> 5) &&& 0x07) (token &&& 0x1F) prev
  | token :: lit :: rest, prev =>
    if token = 0x7E then decode_unbounded (lit :: rest) prev
    else if token &&& 0x1F = 0x1F then
      token_bytes ((token >>> 5) &&& 0x07) lit prev ++
        decode_unbounded rest (token_prev lit prev)
    else
      token_bytes ((token >>> 5) &&& 0x07) (token &&& 0x1F) prev ++
        decode_unbounded (lit :: rest) (token_prev (token &&& 0x1F) prev)

/-- Encoder states reachable from `log_init` by calls of `log_byte` and
`log_flush`; `log_flush` only reads the state. -/
inductive Reachable : State → Prop
  | init : Reachable log_init
  | byte (s : State) (b : Nat) : Reachable s → Reachable (log_byte s b).1
  | flush (s : State) : Reachable s → Reachable s

/-- The window invariant after the input bytes `xs`: the write index is the
byte count modulo 256, the window has 32 slots, and slot `k mod 32` holds byte
`k` (as stored, reduced to 8 bits) for each of the last 32 positions `k`. -/
def WindowInv (s : State) (xs : List Nat) : Prop :=
  s.widx = xs.length % 256 ∧ s.window.length = 32 ∧
  ∀ k < xs.length, xs.length ≤ k + 32 → s.window.getD (k % 32) 0 = xs.getD k 0 % 256

/-! ## The decoder against its capacity-free reading -/

theorem put_copies_eq (cap b n : Nat) (out : List Nat) (h : out.length ≤ cap) :
    put_copies cap b n out =
      if out.length + n ≤ cap then some (out ++ List.replicate n b) else none := by
  induction n generalizing out with
  | zero => simp [put_copies, h]
  | succ n ih =>
    unfold put_copies
    by_cases hc : out.length ≥ cap
    · have h1 : ¬ (out.length + (n + 1) ≤ cap) := by omega
      simp [hc, h1]
    · have h2 : (out ++ [b]).length ≤ cap := by simp; omega
      rw [if_neg hc, ih _ h2]
      have h3 : (out ++ [b]).length + n = out.length + (n + 1) := by simp; omega
      rw [h3, List.replicate_succ]
      simp

theorem token_bytes_length (run delta prev : Nat) :
    (token_bytes run delta prev).length = run + 1 := by
  unfold token_bytes
  split <;> simp

theorem decode_token_eq (cap run delta prev : Nat) (out : List Nat) (h : out.length ≤ cap) :
    decode_token cap run delta prev out =
      if out.length + (run + 1) ≤ cap then
        some (token_prev delta prev, out ++ token_bytes run delta prev)
      else none := by
  unfold decode_token token_prev token_bytes
  rw [put_copies_eq cap prev run out h, put_copies_eq cap prev (run + 1) out h]
  by_cases hd : delta = 0
  · by_cases h2 : out.length + (run + 1) ≤ cap
    · simp [hd, h2]
    · simp [hd, h2]
  · by_cases h2 : out.length + (run + 1) ≤ cap
    · have h1 : out.length + run ≤ cap := by omega
      have h3 : ¬ (cap ≤ out.length + run) := by omega
      simp [hd, h1, h2, h3]
    · by_cases h1 : out.length + run ≤ cap
      · have h3 : cap ≤ out.length + run := by omega
        simp [hd, h1, h2, h3]
      · simp [hd, h1, h2]

theorem decode_loop_eq_aux (cap : Nat) :
    ∀ (n : Nat) (inp : List Nat) (prev : Nat) (out : List Nat),
      inp.length ≤ n → out.length ≤ cap →
      decode_loop cap inp prev out =
        if out.length + (decode_unbounded inp prev).length ≤ cap then
          some (out ++ decode_unbounded inp prev)
        else none := by
  intro n
  induction n with
  | zero =>
    intro inp prev out hn hc
    have : inp = [] := List.length_eq_zero.mp (Nat.le_zero.mp hn)
    subst this
    simp [decode_loop, decode_unbounded, hc]
  | succ n ih =>
    intro inp prev out hn hc
    match inp, hn with
    | [], _ => simp [decode_loop, decode_unbounded, hc]
    | [token], _ =>
      unfold decode_loop decode_unbounded
      by_cases ht : token = 0x7E
      · simp [ht, hc]
      · simp only [ht, if_false]
        rw [decode_token_eq cap _ _ prev out hc, token_bytes_length]
        by_cases h1 : out.length + ((token >>> 5 &&& 7) + 1) ≤ cap
        · simp only [h1, if_true]
        · simp only [h1, if_false]
    | token :: lit :: rest, hn =>
      have hl1 : (lit :: rest).length ≤ n := by simp at hn ⊢; omega
      have hl2 : rest.length ≤ n := by simp at hn ⊢; omega
      unfold decode_loop decode_unbounded
      by_cases ht : token = 0x7E
      · simp only [ht, if_true]
        exact ih _ _ _ hl1 hc
      · simp only [ht, if_false]
        by_cases he : token &&& 0x1F = 0x1F
        · simp only [he, if_true]
          rw [decode_token_eq cap _ _ prev out hc]
          by_cases h1 : out.length + ((token >>> 5 &&& 7) + 1) ≤ cap
          · simp only [h1, if_true]
            rw [ih rest _ _ hl2 (by simp [token_bytes_length]; omega)]
            simp only [List.length_append, token_bytes_length, List.append_assoc, Nat.add_assoc]
          · have h2 : ¬ (out.length + (token_bytes (token >>> 5 &&& 7) lit prev ++
                decode_unbounded rest (token_prev lit prev)).length ≤ cap) := by
              simp [token_bytes_length]; omega
            simp only [h1, h2, if_false]
        · simp only [he, if_false]
          rw [decode_token_eq cap _ _ prev out hc]
          by_cases h1 : out.length + ((token >>> 5 &&& 7) + 1) ≤ cap
          · simp only [h1, if_true]
            rw [ih (lit :: rest) _ _ hl1 (by simp [token_bytes_length]; omega)]
            simp only [List.length_append, token_bytes_length, List.append_assoc, Nat.add_assoc]
          · have h2 : ¬ (out.length + (token_bytes (token >>> 5 &&& 7) (token &&& 31) prev ++
                decode_unbounded (lit :: rest) (token_prev (token &&& 31) prev)).length ≤ cap) := by
              simp [token_bytes_length]; omega
            simp only [h1, h2, if_false]

/-- The decoder writes the capacity-free decoding when it fits and returns
`-1` when it does not. -/
theorem decode_buf_eq (inp : List Nat) (cap : Nat) :
    decode_buf inp cap =
      if (decode_unbounded inp 0).length ≤ cap then some (decode_unbounded inp 0) else none := by
  unfold decode_buf
  rw [decode_loop_eq_aux cap inp.length inp 0 [] (Nat.le_refl _) (Nat.zero_le _)]
  simp

/-- The value returned by `decode`, in terms of the capacity-free decoding. -/
theorem decode_eq (inp : List Nat) (cap : Nat) :
    decode inp cap =
      if (decode_unbounded inp 0).length ≤ cap then ((decode_unbounded inp 0).length : Int)
      else -1 := by
  unfold decode
  rw [decode_buf_eq]
  by_cases h : (decode_unbounded inp 0).length ≤ cap
  · simp only [h, if_true]
  · simp only [h, if_false]

/-- No token writes more than eight bytes, so a stream of `n` bytes decodes to
at most `8 * n` bytes. -/
theorem decode_unbounded_length_le :
    ∀ (n : Nat) (inp : List Nat) (prev : Nat), inp.length ≤ n →
      (decode_unbounded inp prev).length ≤ 8 * inp.length := by
  intro n
  induction n with
  | zero =>
    intro inp prev hn
    have : inp = [] := List.length_eq_zero.mp (Nat.le_zero.mp hn)
    subst this
    simp [decode_unbounded]
  | succ n ih =>
    intro inp prev hn
    match inp, hn with
    | [], _ => simp [decode_unbounded]
    | [token], _ =>
      unfold decode_unbounded
      have hr : token >>> 5 &&& 7 ≤ 7 := Nat.and_le_right
      split
      · simp
      · simp only [token_bytes_length, List.length_singleton]
        omega
    | token :: lit :: rest, hn =>
      have hl1 : (lit :: rest).length ≤ n := by simp at hn ⊢; omega
      have hl2 : rest.length ≤ n := by simp at hn ⊢; omega
      have hr : token >>> 5 &&& 7 ≤ 7 := Nat.and_le_right
      unfold decode_unbounded
      split
      · have := ih (lit :: rest) prev hl1
        simp only [List.length_cons] at this ⊢
        omega
      · split
        · have := ih rest (token_prev lit prev) hl2
          simp only [List.length_append, token_bytes_length, List.length_cons]
          omega
        · have := ih (lit :: rest) (token_prev (token &&& 31) prev) hl1
          simp only [List.length_append, token_bytes_length, List.length_cons] at this ⊢
          omega

/-- An escape token left without its literal at the end of a stream of complete
units decodes exactly as if the literal `0x1F` followed it. -/
theorem decode_unbounded_truncated_escape (t : Nat) (ht : t ≠ 0x7E)
    (h31 : t &&& 0x1F = 0x1F) :
    ∀ (n : Nat) (a : List Nat) (prev : Nat), a.length ≤ n → complete_units a = true →
      decode_unbounded (a ++ [t]) prev = decode_unbounded (a ++ [t, 0x1F]) prev := by
  intro n
  induction n with
  | zero =>
    intro a prev hn _
    have : a = [] := List.length_eq_zero.mp (Nat.le_zero.mp hn)
    subst this
    simp [decode_unbounded, ht, h31]
  | succ n ih =>
    intro a prev hn hc
    match a, hn, hc with
    | [], _, _ => simp [decode_unbounded, ht, h31]
    | [x], _, hc =>
      have h0 := ih [] prev (Nat.zero_le _) rfl
      simp only [List.nil_append] at h0
      simp only [complete_units, decide_eq_true_eq] at hc
      simp only [List.singleton_append]
      unfold decode_unbounded
      by_cases hx : x = 0x7E
      · simp only [hx, if_true]
        exact h0
      · have hx31 : ¬ (x &&& 0x1F = 0x1F) := by
          rcases hc with hc | hc
          · exact absurd hc hx
          · exact hc
        simp only [hx, hx31, if_false]
        have h1 := ih [] (token_prev (x &&& 31) prev) (Nat.zero_le _) rfl
        simp only [List.nil_append] at h1
        rw [h1]
    | x :: y :: rest, hn, hc =>
      have hl1 : (y :: rest).length ≤ n := by simp at hn ⊢; omega
      have hl2 : rest.length ≤ n := by simp at hn ⊢; omega
      unfold complete_units at hc
      simp only [List.cons_append]
      unfold decode_unbounded
      by_cases hx : x = 0x7E
      · simp only [hx, if_true] at hc ⊢
        exact ih (y :: rest) prev hl1 hc
      · simp only [hx, if_false] at hc ⊢
        by_cases hx31 : x &&& 0x1F = 0x1F
        · simp only [hx31, if_true] at hc ⊢
          rw [ih rest _ hl2 hc]
        · simp only [hx31, if_false] at hc ⊢
          have := ih (y :: rest) (token_prev (x &&& 31) prev) hl1 hc
          simp only [List.cons_append] at this
          rw [this]

/-! ## The encoder call by call -/

theorem log_byte_widx (s : State) (b : Nat) :
    (log_byte s b).1.widx = (s.widx + 1) % 256 := by
  unfold log_byte rle_step drift_step window_update
  simp only
  split <;> split <;> (try split) <;> (try split) <;> rfl

/-- The output of `log_bytes` is the per-call emissions of `log_trace`, each
call contributing its drift bytes followed by its packing bytes. -/
theorem log_bytes_output (bs : List Nat) :
    ∀ s : State, (log_bytes s bs).2 = ((log_trace s bs).map fun e => e.1 ++ e.2).flatten := by
  induction bs with
  | nil => intro s; rfl
  | cons b bs ih =>
    intro s
    simp only [log_bytes, log_trace, List.map_cons, List.flatten_cons]
    rw [ih]
    rfl

/-- While the write index stays below 32 the drift trigger of a call emits
nothing. -/
theorem log_trace_cold (bs : List Nat) :
    ∀ (s : State) (k : Nat), s.widx + k ≤ 31 →
      ∀ e ∈ (log_trace s bs).take k, e.1 = [] := by
  induction bs with
  | nil => intro s k _ e he; simp [log_trace] at he
  | cons b bs ih =>
    intro s k hk e he
    cases k with
    | zero => simp at he
    | succ k =>
      simp only [log_trace, List.take_succ_cons, List.mem_cons] at he
      rcases he with he | he
      · subst he
        have hw : ¬ ((s.widx + 1) % 256 ≥ WIN) := by
          unfold WIN
          omega
        simp [drift_step, window_update, hw]
      · refine ih (log_byte s b).1 k ?_ e he
        rw [log_byte_widx]
        omega

theorem log_trace_length (bs : List Nat) :
    ∀ s : State, (log_trace s bs).length = bs.length := by
  induction bs with
  | nil => intro s; rfl
  | cons b bs ih => intro s; simp [log_trace, ih]

/-! ## Concrete scenarios -/

/-- C2 (scenario A): from `log_init`, ten bytes `0xAA` followed by `log_flush`
emit exactly `[0x1F, 0xAA, 0xE0, 0x00]`; `decode` on these four bytes, with any
output capacity of at least ten, returns 10 and writes ten bytes `0xAA`. -/
theorem scenario_A_ten_repeats (cap : Nat) (h : 10 ≤ cap) :
    encode (List.replicate 10 0xAA) = [0x1F, 0xAA, 0xE0, 0x00] ∧
    decode [0x1F, 0xAA, 0xE0, 0x00] cap = 10 ∧
    decode_buf [0x1F, 0xAA, 0xE0, 0x00] cap = some (List.replicate 10 0xAA) := by
  have hu : decode_unbounded [0x1F, 0xAA, 0xE0, 0x00] 0 = List.replicate 10 0xAA := by decide
  refine ⟨by decide, ?_, ?_⟩
  · rw [decode_eq, hu]
    simp [h]
  · rw [decode_buf_eq, hu]
    simp [h]

/-- Scenario A at the capacity used by `test_rle` (a 256-byte buffer). -/
theorem scenario_A_ten_repeats_witness :
    10 ≤ 256 ∧
    encode (List.replicate 10 0xAA) = [0x1F, 0xAA, 0xE0, 0x00] ∧
    decode [0x1F, 0xAA, 0xE0, 0x00] 256 = 10 ∧
    decode_buf [0x1F, 0xAA, 0xE0, 0x00] 256 = some (List.replicate 10 0xAA) :=
  ⟨by decide, scenario_A_ten_repeats 256 (by decide)⟩

/-- C1 (fails on the code): the input `[0, 0, 0, 0x1E]` has a single flush, of
run 3 and XOR-delta `0x1E` (so no delta equals 31); the packed token is
`(3 << 5) | 0x1E = 0x7E`, the marker value, the decoder skips it, and `decode`
returns 0 bytes instead of the four input bytes. -/
theorem roundtrip_lost_on_marker_valued_token :
    flush_log log_init [0, 0, 0, 0x1E] = [(3, 0x1E)] ∧
    encode [0, 0, 0, 0x1E] = [0x7E] ∧
    decode_buf (encode [0, 0, 0, 0x1E]) 4 = some [] ∧
    decode (encode [0, 0, 0, 0x1E]) 4 = 0 ∧
    decode (encode [0, 0, 0, 0x1E]) 256 = 0 := by
  decide

/-- C3 (fails on the code): for the 40 bytes `0 .. 39` the change `15 -> 16`
has XOR-delta 31 and is packed as the bare token `0x1F`; the decoder takes the
next token `0x01` as its literal, so `decode` returns 39 bytes and the output
departs from the input at index 16 (14 instead of 16). -/
theorem scenario_C_decodes_wrongly :
    decode (encode (List.range 40)) 256 = 39 ∧
    decode_buf (encode (List.range 40)) 256 =
      some [0, 1, 2, 3, 4, 5, 6, 7, 8, 9, 10, 11, 12, 13, 14, 15, 14, 13, 12, 11, 10, 9, 8, 7,
        6, 5, 4, 3, 2, 1, 0, 63, 62, 61, 60, 59, 58, 57, 56] ∧
    (encode (List.range 40)).take 17 =
      [0x21, 3, 1, 7, 1, 3, 1, 15, 1, 3, 1, 7, 1, 3, 1, 0x1F, 1] := by
  decide

/-- C4 (fails on the code): on the input `[0, 0, 0, 0x1E]` no call emits a
marker (the drift part of every call is empty), and the packing step of the
fourth call emits the token `0x7E`; the decoder drops that token, reading it as
a marker. -/
theorem packing_step_emits_marker_value :
    log_trace log_init [0, 0, 0, 0x1E] = [([], []), ([], []), ([], []), ([], [0x7E])] ∧
    rle_step { log_init with run := 3 } 0x1E = ({ log_init with prev := 0x1E }, [STUFF_BYTE]) ∧
    decode_buf [0x7E] 4 = some [] := by
  decide

/-- C9 (as stated, fails): for the six bytes of scenario B the first call emits
nothing, and the calls for `0x22` and `0x44` emit two-byte escape sequences;
the output has seven bytes, not six. -/
theorem scenario_B_has_escapes :
    log_trace log_init [0x00, 0x11, 0x22, 0x33, 0x44, 0x55] =
      [([], []), ([], [0x31]), ([], [0x1F, 0x33]), ([], [0x11]), ([], [0x1F, 0x77]),
        ([], [0x11])] ∧
    (encode [0x00, 0x11, 0x22, 0x33, 0x44, 0x55]).length = 7 := by
  decide

/-- C9 (amended): for the six bytes of scenario B the encoder flushes five
times, with run 1 then 0 and XOR-deltas `0x11, 0x33, 0x11, 0x77, 0x11`; the
emitted stream is exactly `[0x31, 0x1F, 0x33, 0x11, 0x1F, 0x77, 0x11]`: five
token units, the second and fourth being escape sequences. -/
theorem scenario_B_token_shape :
    flush_log log_init [0x00, 0x11, 0x22, 0x33, 0x44, 0x55] =
      [(1, 0x11), (0, 0x33), (0, 0x11), (0, 0x77), (0, 0x11)] ∧
    encode [0x00, 0x11, 0x22, 0x33, 0x44, 0x55] =
      [0x31, 0x1F, 0x33, 0x11, 0x1F, 0x77, 0x11] := by
  decide

/-! ## Drift trigger -/

/-- C6 (fails on the code): on 16 bytes `0xFF`, 13 bytes `0x00` and 5 bytes
`0x01`, the calls for bytes 31 to 34 emit nothing, a marker, nothing, a marker,
all four bytes being absorbed into the run; the output stream therefore holds
two markers at adjacent positions, followed by the token of `log_flush`. -/
theorem adjacent_markers_emitted :
    (log_trace log_init
        (List.replicate 16 0xFF ++ List.replicate 13 0 ++ List.replicate 5 1)).drop 30 =
      [([], []), ([STUFF_BYTE], []), ([], []), ([STUFF_BYTE], [])] ∧
    encode (List.replicate 16 0xFF ++ List.replicate 13 0 ++ List.replicate 5 1) =
      [0x1F, 0xFF, 0xE0, 0xFF, 0xFF, 0xE0, 0x81, 0x7E, 0x7E, 0x60] := by
  decide!

/-- C7 (fails on the code): on the 256 bytes `0 .. 255` the 8-bit write index
is 255 before the 256th call and wraps to 0 in it, so the test
`s.widx >= WIN` fails and the drift step is skipped: no marker is emitted for
byte 256 although the divergence of the last 32 bytes is 16 > 2 and no marker
was emitted for byte 255 (one was for byte 254). -/
theorem drift_skipped_after_index_wrap :
    ((log_trace log_init (List.range 256)).drop 253).map Prod.fst = [[STUFF_BYTE], [], []] ∧
    (log_bytes log_init (List.range 255)).1.widx = 255 ∧
    (log_bytes log_init (List.range 255)).1.last_stuff = 0 ∧
    (window_update (log_bytes log_init (List.range 255)).1 255).widx = 0 ∧
    spec_divergence (List.range 256) = 16 := by
  decide!

/-- C8 (cold start): whatever the input, the drift trigger emits nothing in
the first 31 `log_byte` calls after `log_init`; the output for an input of at
most 31 bytes is made of the packing steps' bytes only; and a marker can be
emitted in the 32nd call (it is, on the input `0 .. 31`). -/
theorem cold_start_no_marker (bs : List Nat) :
    (∀ e ∈ (log_trace log_init bs).take 31, e.1 = []) ∧
    (log_bytes log_init (bs.take 31)).2 =
      ((log_trace log_init (bs.take 31)).map Prod.snd).flatten ∧
    (log_trace log_init (List.range 32))[31]? = some ([STUFF_BYTE], [1]) := by
  refine ⟨log_trace_cold bs log_init 31 (by decide), ?_, by decide!⟩
  rw [log_bytes_output]
  congr 1
  apply List.map_congr_left
  intro e he
  have hlen : (log_trace log_init (bs.take 31)).length ≤ 31 := by
    rw [log_trace_length]
    simp
  have h := log_trace_cold (bs.take 31) log_init 31 (by decide) e
    (by rw [List.take_of_length_le hlen]; exact he)
  simp [h]

/-! ## Decoder failures -/

/-- C5 (as stated, fails): the one-byte stream `[0x1F]` is an escape token with
no byte after it; `decode` does not fail, it returns 1 and writes `0 XOR 31`. -/
theorem truncated_escape_not_rejected :
    decode [0x1F] 10 = 1 ∧ decode_buf [0x1F] 10 = some [0x1F] := by
  decide

/-- C5 (amended): when a stream of complete units is followed by a final
non-marker token whose delta field is 31, `decode` takes the sentinel value 31
itself as the delta: at every capacity the call gives the result of the same
stream with the literal byte `0x1F` appended, and with eight bytes of capacity
per stream byte it does not return `-1`. -/
theorem truncated_escape_uses_sentinel (a : List Nat) (t cap : Nat)
    (ha : complete_units a = true) (ht : t ≠ 0x7E) (h31 : t &&& 0x1F = 0x1F) :
    decode_buf (a ++ [t]) cap = decode_buf (a ++ [t, 0x1F]) cap ∧
    decode (a ++ [t]) cap = decode (a ++ [t, 0x1F]) cap ∧
    decode (a ++ [t]) (cap + 8 * (a.length + 1)) ≠ -1 := by
  have hu := decode_unbounded_truncated_escape t ht h31 a.length a 0 (Nat.le_refl _) ha
  refine ⟨?_, ?_, ?_⟩
  · rw [decode_buf_eq, decode_buf_eq, hu]
  · rw [decode_eq, decode_eq, hu]
  · rw [decode_eq]
    have hl := decode_unbounded_length_le (a ++ [t]).length (a ++ [t]) 0 (Nat.le_refl _)
    simp only [List.length_append, List.length_singleton] at hl
    have hle : (decode_unbounded (a ++ [t]) 0).length ≤ cap + 8 * (a.length + 1) := by omega
    rw [if_pos hle]
    omega

/-- The amended C5 at the stream `[0x7E, 0x21, 0xFF]` with capacity 4: a marker,
the token `0x21`, then the escape token `0xFF` with nothing after it. -/
theorem truncated_escape_uses_sentinel_witness :
    decode_buf ([0x7E, 0x21] ++ [0xFF]) 4 = decode_buf ([0x7E, 0x21] ++ [0xFF, 0x1F]) 4 ∧
    decode ([0x7E, 0x21] ++ [0xFF]) 4 = decode ([0x7E, 0x21] ++ [0xFF, 0x1F]) 4 ∧
    decode ([0x7E, 0x21] ++ [0xFF]) (4 + 8 * ([0x7E, 0x21].length + 1)) ≠ -1 :=
  truncated_escape_uses_sentinel [0x7E, 0x21] 0xFF 4 (by decide) (by decide) (by decide)

/-- C10 (capacity error): `decode_unbounded inp 0` is what `decode` writes at
every capacity that holds it; at capacity `cap` the call returns `-1` exactly
when that decoding is longer than `cap`, and otherwise returns its length,
which is at most `cap`, having written exactly those bytes. -/
theorem decode_capacity_error (inp : List Nat) (cap : Nat) :
    (∀ k, decode_buf inp ((decode_unbounded inp 0).length + k) =
        some (decode_unbounded inp 0)) ∧
    (decode inp cap = -1 ↔ cap < (decode_unbounded inp 0).length) ∧
    decode inp cap =
      (if (decode_unbounded inp 0).length ≤ cap then ((decode_unbounded inp 0).length : Int)
       else -1) ∧
    decode_buf inp cap =
      (if (decode_unbounded inp 0).length ≤ cap then some (decode_unbounded inp 0)
       else none) := by
  refine ⟨?_, ?_, decode_eq inp cap, decode_buf_eq inp cap⟩
  · intro k
    rw [decode_buf_eq]
    simp
  · rw [decode_eq]
    by_cases h : (decode_unbounded inp 0).length ≤ cap
    · simp only [h, if_true]
      constructor
      · intro h1
        omega
      · intro h1
        omega
    · simp only [h, if_false]
      constructor
      · intro _
        omega
      · intro _
        trivial

/-! ## Decoder units -/

theorem decode_unbounded_marker (rest : List Nat) (prev : Nat) :
    decode_unbounded (0x7E :: rest) prev = decode_unbounded rest prev := by
  cases rest <;> simp [decode_unbounded]

theorem decode_unbounded_plain (t : Nat) (rest : List Nat) (prev : Nat)
    (ht : t ≠ 0x7E) (hd : t &&& 0x1F ≠ 0x1F) :
    decode_unbounded (t :: rest) prev =
      token_bytes ((t >>> 5) &&& 0x07) (t &&& 0x1F) prev ++
        decode_unbounded rest (token_prev (t &&& 0x1F) prev) := by
  cases rest with
  | nil => simp [decode_unbounded, ht]
  | cons lit rest => simp [decode_unbounded, ht, hd]

theorem decode_unbounded_escape (t lit : Nat) (rest : List Nat) (prev : Nat)
    (ht : t ≠ 0x7E) (hd : t &&& 0x1F = 0x1F) :
    decode_unbounded (t :: lit :: rest) prev =
      token_bytes ((t >>> 5) &&& 0x07) lit prev ++
        decode_unbounded rest (token_prev lit prev) := by
  simp [decode_unbounded, ht, hd]

theorem decode_loop_marker (cap : Nat) (rest : List Nat) (prev : Nat) (out : List Nat) :
    decode_loop cap (0x7E :: rest) prev out = decode_loop cap rest prev out := by
  cases rest <;> simp [decode_loop]

/-- A marker placed after a stream of complete units does not change the
capacity-free decoding. -/
theorem decode_unbounded_skip (b : List Nat) :
    ∀ (n : Nat) (a : List Nat) (prev : Nat), a.length ≤ n → complete_units a = true →
      decode_unbounded (a ++ 0x7E :: b) prev = decode_unbounded (a ++ b) prev := by
  intro n
  induction n with
  | zero =>
    intro a prev hn _
    have : a = [] := List.length_eq_zero.mp (Nat.le_zero.mp hn)
    subst this
    simpa using decode_unbounded_marker b prev
  | succ n ih =>
    intro a prev hn hc
    match a, hn, hc with
    | [], _, _ => simpa using decode_unbounded_marker b prev
    | [x], _, hc =>
      simp only [complete_units, decide_eq_true_eq] at hc
      simp only [List.singleton_append]
      by_cases hx : x = 0x7E
      · subst hx
        simp only [decode_unbounded_marker]
      · have hx31 : x &&& 0x1F ≠ 0x1F := by
          rcases hc with hc | hc
          · exact absurd hc hx
          · exact hc
        rw [decode_unbounded_plain x _ prev hx hx31, decode_unbounded_plain x _ prev hx hx31,
          decode_unbounded_marker]
    | x :: y :: rest, hn, hc =>
      have hl1 : (y :: rest).length ≤ n := by simp at hn ⊢; omega
      have hl2 : rest.length ≤ n := by simp at hn ⊢; omega
      unfold complete_units at hc
      simp only [List.cons_append]
      by_cases hx : x = 0x7E
      · simp only [hx, if_true] at hc
        subst hx
        rw [decode_unbounded_marker, decode_unbounded_marker]
        exact ih (y :: rest) prev hl1 hc
      · simp only [hx, if_false] at hc
        by_cases hx31 : x &&& 0x1F = 0x1F
        · simp only [hx31, if_true] at hc
          rw [decode_unbounded_escape x y _ prev hx hx31,
            decode_unbounded_escape x y _ prev hx hx31, ih rest _ hl2 hc]
        · simp only [hx31, if_false] at hc
          have h := ih (y :: rest) (token_prev (x &&& 0x1F) prev) hl1 hc
          simp only [List.cons_append] at h
          rw [decode_unbounded_plain x _ prev hx hx31, decode_unbounded_plain x _ prev hx hx31, h]

/-- C14 (decoder marker skip): in the decoder loop a byte `0x7E` in token
position leaves `prev` and the output as they are, whatever follows; and for a
stream `a` of complete units, any stream `b` and any capacity, `decode` on
`a ++ [0x7E] ++ b` returns the same value and the same bytes as on `a ++ b`. -/
theorem decoder_marker_skip (a b : List Nat) (cap : Nat) (ha : complete_units a = true) :
    (∀ (rest : List Nat) (prev : Nat) (out : List Nat),
      decode_loop cap (0x7E :: rest) prev out = decode_loop cap rest prev out) ∧
    decode (a ++ [0x7E] ++ b) cap = decode (a ++ b) cap ∧
    decode_buf (a ++ [0x7E] ++ b) cap = decode_buf (a ++ b) cap := by
  have hu := decode_unbounded_skip b a.length a 0 (Nat.le_refl _) ha
  have hl : a ++ [0x7E] ++ b = a ++ 0x7E :: b := by simp
  refine ⟨fun rest prev out => decode_loop_marker cap rest prev out, ?_, ?_⟩
  · rw [hl, decode_eq, decode_eq, hu]
  · rw [hl, decode_buf_eq, decode_buf_eq, hu]

/-- C14 at `a = [0x21, 0x1F, 0x7E]` (a token, then an escape token whose literal
is `0x7E`), `b = [0xE0]` and capacity 16. -/
theorem decoder_marker_skip_witness :
    (∀ (rest : List Nat) (prev : Nat) (out : List Nat),
      decode_loop 16 (0x7E :: rest) prev out = decode_loop 16 rest prev out) ∧
    decode ([0x21, 0x1F, 0x7E] ++ [0x7E] ++ [0xE0]) 16 = decode ([0x21, 0x1F, 0x7E] ++ [0xE0]) 16 ∧
    decode_buf ([0x21, 0x1F, 0x7E] ++ [0x7E] ++ [0xE0]) 16 =
      decode_buf ([0x21, 0x1F, 0x7E] ++ [0xE0]) 16 :=
  decoder_marker_skip [0x21, 0x1F, 0x7E] [0xE0] 16 (by decide)

/-- C20 (as stated, fails): the one-token stream `[0x21]` (run 1, delta 1) from
`prev = 0` decodes to `[0, 1]`, one copy of `prev` and then the new byte; the
order of the header comment would give `[1, 1]`. -/
theorem header_comment_order_not_followed :
    decode_buf [0x21] 4 = some [0, 1] ∧
    decode_token 4 1 1 0 [] = some (1, [0, 1]) ∧
    decide (decode_buf [0x21] 4 = some [1, 1]) = false := by
  decide

/-- C20 (amended): when the buffer has room for `run + 1` more bytes, a token
with non-zero resolved `delta` makes the decoder write `run` copies of `prev`
first and the new byte `prev XOR delta` last, which becomes `prev`; a token with
`delta = 0` makes it write `run + 1` copies of `prev` and keep `prev`. -/
theorem decoder_token_order (cap run delta prev : Nat) (out : List Nat)
    (h : out.length + (run + 1) ≤ cap) :
    decode_token cap run delta prev out =
      if delta ≠ 0 then
        some (prev ^^^ delta, out ++ (List.replicate run prev ++ [prev ^^^ delta]))
      else
        some (prev, out ++ List.replicate (run + 1) prev) := by
  have hc : out.length ≤ cap := by omega
  rw [decode_token_eq cap run delta prev out hc, if_pos h]
  unfold token_prev token_bytes
  split <;> rfl

/-- The amended C20 at run 2, delta 5, `prev = 9`, two bytes already written
and capacity 8. -/
theorem decoder_token_order_witness :
    decode_token 8 2 5 9 [7, 9] =
      if 5 ≠ 0 then some (9 ^^^ 5, [7, 9] ++ (List.replicate 2 9 ++ [9 ^^^ 5]))
      else some (9, [7, 9] ++ List.replicate (2 + 1) 9) :=
  decoder_token_order 8 2 5 9 [7, 9] (by decide)

/-! ## Structure of one `log_byte` call -/

theorem drift_step_prev (s : State) : (drift_step s).1.prev = s.prev := by
  unfold drift_step
  split <;> (try split) <;> rfl

theorem drift_step_run (s : State) : (drift_step s).1.run = s.run := by
  unfold drift_step
  split <;> (try split) <;> rfl

theorem drift_step_out (s : State) :
    (drift_step s).2 = [] ∨ (drift_step s).2 = [STUFF_BYTE] := by
  unfold drift_step
  split
  · split
    · exact Or.inr rfl
    · exact Or.inl rfl
  · exact Or.inl rfl

theorem rle_step_out (s : State) (c : Nat) :
    (rle_step s c).2 = [] ∨
    (rle_step s c).2 = [((s.run <<< 5) ||| ((c ^^^ s.prev) &&& 0x1F)) % 256] ∨
    (rle_step s c).2 = [((s.run <<< 5) ||| 0x1F) % 256, c ^^^ s.prev] := by
  unfold rle_step
  simp only
  split
  · exact Or.inl rfl
  · split
    · exact Or.inr (Or.inr rfl)
    · exact Or.inr (Or.inl rfl)

theorem rle_step_run_le (s : State) (c : Nat) : (rle_step s c).1.run ≤ 7 := by
  unfold rle_step RLE_MAX
  simp only
  split
  · rename_i h
    show (s.run + 1) % 256 ≤ 7
    omega
  · split <;> exact Nat.zero_le _

theorem log_byte_run_le (s : State) (b : Nat) : (log_byte s b).1.run ≤ 7 :=
  rle_step_run_le _ _

theorem log_byte_out_length (s : State) (b : Nat) : (log_byte s b).2.length ≤ 3 := by
  unfold log_byte
  simp only [List.length_append]
  have h1 := drift_step_out (window_update s (b % 256))
  have h2 := rle_step_out (drift_step (window_update s (b % 256))).1 (b % 256)
  rcases h1 with h1 | h1 <;> rcases h2 with h2 | h2 | h2 <;> simp [h1, h2]

theorem log_bytes_out_length (bs : List Nat) :
    ∀ s : State, (log_bytes s bs).2.length ≤ 3 * bs.length := by
  induction bs with
  | nil => intro s; simp [log_bytes]
  | cons b bs ih =>
    intro s
    have h1 := log_byte_out_length s b
    have h2 := ih (log_byte s b).1
    simp only [log_bytes, List.length_append, List.length_cons]
    omega

theorem log_flush_length (s : State) : (log_flush s).length ≤ 1 := by
  unfold log_flush
  split <;> simp

/-- Packing a run of at most 7 with a 5-bit field into one byte keeps both. -/
theorem token_fields :
    ∀ r < 8, ∀ d < 32,
      ((r <<< 5 ||| d) % 256) >>> 5 &&& 7 = r ∧ (r <<< 5 ||| d) % 256 &&& 31 = d ∧
      (r <<< 5 ||| d) % 256 = r <<< 5 ||| d := by
  decide

theorem reachable_run_le (s : State) (h : Reachable s) : s.run ≤ 7 := by
  induction h with
  | init => decide
  | byte s b _ _ => exact log_byte_run_le s b
  | flush s _ ih => exact ih

/-- C11 (bounded sink fan-out): in any encoder state, one `log_byte` call emits
the drift trigger's bytes (nothing or one marker) followed by the packing
step's bytes (nothing, one token, or a token and the literal delta), at most
three bytes in all; `log_flush` emits at most one byte; encoding `n` bytes and
flushing emits at most `3 * n + 1` bytes. -/
theorem sink_fan_out (s : State) (b : Nat) (bs : List Nat) :
    (log_byte s b).2 =
      (drift_step (window_update s (b % 256))).2 ++
        (rle_step (drift_step (window_update s (b % 256))).1 (b % 256)).2 ∧
    ((drift_step (window_update s (b % 256))).2 = [] ∨
      (drift_step (window_update s (b % 256))).2 = [STUFF_BYTE]) ∧
    ((rle_step (drift_step (window_update s (b % 256))).1 (b % 256)).2 = [] ∨
      (∃ tok, (rle_step (drift_step (window_update s (b % 256))).1 (b % 256)).2 = [tok]) ∨
      (∃ tok, (rle_step (drift_step (window_update s (b % 256))).1 (b % 256)).2 =
        [tok, (b % 256) ^^^ s.prev])) ∧
    (log_byte s b).2.length ≤ 3 ∧
    (log_flush s).length ≤ 1 ∧
    (encode bs).length ≤ 3 * bs.length + 1 := by
  refine ⟨rfl, drift_step_out _, ?_, log_byte_out_length s b, log_flush_length s, ?_⟩
  · have h := rle_step_out (drift_step (window_update s (b % 256))).1 (b % 256)
    rw [drift_step_prev, drift_step_run] at h
    rcases h with h | h | h
    · exact Or.inl h
    · exact Or.inr (Or.inl ⟨_, h⟩)
    · exact Or.inr (Or.inr ⟨_, h⟩)
  · unfold encode
    have h1 := log_bytes_out_length bs log_init
    have h2 := log_flush_length (log_bytes log_init bs).1
    simp only [List.length_append]
    omega

/-- C13 (as stated, fails): after `log_init` and `log_byte(0)` the buffered
run count is 1, and `log_flush` emits the token `0x00`, whose run field is 0,
not 1: the flush token is packed from `run - 1`. -/
theorem flush_token_run_field_is_run_minus_one :
    (log_byte log_init 0).1.run = 1 ∧
    log_flush (log_byte log_init 0).1 = [0x00] ∧
    (0x00 >>> 5) &&& 0x07 = 0 ∧
    encode [0] = [0x00] := by
  decide

/-- C13 (amended): in every reachable encoder state `run <= 7`, so `run << 5`
fits in a byte; the first byte the packing step of the next `log_byte` call
emits, if any, is `(run << 5) | field` with nothing cut off by the 8-bit store
and carries `run` in bits 7..5; the token of `log_flush`, if any, is
`(run - 1) << 5` and carries `run - 1` there. -/
theorem run_counter_invariant (s : State) (h : Reachable s) :
    s.run ≤ 7 ∧ s.run <<< 5 < 256 ∧
    (∀ b t : Nat,
      (rle_step (drift_step (window_update s (b % 256))).1 (b % 256)).2.head? = some t →
        t = s.run <<< 5 ||| (t &&& 0x1F) ∧ (t >>> 5) &&& 0x07 = s.run) ∧
    (∀ t ∈ log_flush s, t = (s.run - 1) <<< 5 ∧ (t >>> 5) &&& 0x07 = s.run - 1) := by
  have hr := reachable_run_le s h
  have hr8 : s.run < 8 := by omega
  refine ⟨hr, ?_, ?_, ?_⟩
  · have := (token_fields s.run hr8 0 (by decide)).2.2
    simp only [Nat.or_zero] at this
    have h2 : (s.run <<< 5) % 256 < 256 := Nat.mod_lt _ (by decide)
    omega
  · intro b t ht
    have h := rle_step_out (drift_step (window_update s (b % 256))).1 (b % 256)
    rw [drift_step_prev, drift_step_run] at h
    rw [show (window_update s (b % 256)).prev = s.prev from rfl,
      show (window_update s (b % 256)).run = s.run from rfl] at h
    rcases h with h | h | h
    · rw [h] at ht
      simp at ht
    · rw [h] at ht
      simp only [List.head?_cons, Option.some.injEq] at ht
      have hd : (b % 256 ^^^ s.prev) &&& 0x1F < 32 := by
        have : (b % 256 ^^^ s.prev) &&& 0x1F ≤ 0x1F := Nat.and_le_right
        omega
      obtain ⟨f1, f2, _⟩ := token_fields s.run hr8 _ hd
      rw [← ht, f2]
      exact ⟨(token_fields s.run hr8 _ hd).2.2, f1⟩
    · rw [h] at ht
      simp only [List.head?_cons, Option.some.injEq] at ht
      obtain ⟨f1, f2, f3⟩ := token_fields s.run hr8 0x1F (by decide)
      rw [← ht, f2]
      exact ⟨f3, f1⟩
  · intro t ht
    unfold log_flush at ht
    split at ht
    · simp only [List.mem_singleton] at ht
      have hr1 : s.run - 1 < 8 := by omega
      obtain ⟨f1, _, f3⟩ := token_fields (s.run - 1) hr1 0 (by decide)
      simp only [Nat.or_zero] at f1 f3
      rw [ht]
      exact ⟨f3, f1⟩
    · simp at ht

/-- The amended C13 at the state reached by `log_init`, `log_byte(0xAA)`,
`log_byte(0xAA)`, `log_flush()`. -/
theorem run_counter_invariant_witness :
    (log_byte (log_byte log_init 0xAA).1 0xAA).1.run ≤ 7 :=
  (run_counter_invariant _
    (Reachable.flush _ (Reachable.byte _ 0xAA (Reachable.byte _ 0xAA Reachable.init)))).1

/-- C19 (delta-31 sentinel collision): when the packing step flushes with
`curr XOR prev = 31` it emits the single byte `(run << 5) | 0x1F` and no
literal, the very byte that opens the escape sequence of a flush with a delta
above 31; on the input `[0x1F, 0x01]` the stream is `[0x1F, 0x1E]`, the decoder
takes `0x1E` as the literal delta, and `decode` returns the single byte `0x1E`. -/
theorem delta_31_sentinel_collision (s : State) (c : Nat) (h : c ^^^ s.prev = 31) :
    (rle_step s c).2 = [((s.run <<< 5) ||| 0x1F) % 256] ∧
    (∀ c2, c2 ^^^ s.prev > 0x1F →
      (rle_step s c2).2 = [((s.run <<< 5) ||| 0x1F) % 256, c2 ^^^ s.prev]) ∧
    encode [0x1F, 0x01] = [0x1F, 0x1E] ∧
    decode_buf (encode [0x1F, 0x01]) 256 = some [0x1E] ∧
    decode (encode [0x1F, 0x01]) 256 = 1 := by
  refine ⟨?_, ?_, by decide, by decide, by decide⟩
  · unfold rle_step
    simp [h]
  · intro c2 h2
    have h0 : c2 ^^^ s.prev ≠ 0 := by omega
    unfold rle_step
    simp [h0, h2]

/-- C19 at the state after `log_init` and the byte `0x1F`. -/
theorem delta_31_sentinel_collision_witness :
    (rle_step log_init 0x1F).2 = [((log_init.run <<< 5) ||| 0x1F) % 256] :=
  (delta_31_sentinel_collision log_init 0x1F (by decide)).1

/-- C16 (scenario C, marker presence): on the 40 bytes `0 .. 39` the drift
trigger emits nothing in the first 31 calls and a marker in calls 32, 34, 36,
38 and 40; the emitted stream holds these five markers. -/
theorem scenario_C_markers :
    (log_trace log_init (List.range 40)).map Prod.fst =
      List.replicate 31 [] ++
        [[STUFF_BYTE], [], [STUFF_BYTE], [], [STUFF_BYTE], [], [STUFF_BYTE], [], [STUFF_BYTE]] ∧
    encode (List.range 40) =
      [0x21, 3, 1, 7, 1, 3, 1, 15, 1, 3, 1, 7, 1, 3, 1, 0x1F, 1, 3, 1, 7, 1, 3, 1, 15, 1, 3, 1,
        7, 1, 3, 0x7E, 1, 0x1F, 0x3F, 0x7E, 1, 3, 0x7E, 1, 7, 0x7E, 1, 3, 0x7E, 1] := by
  decide!

/-! ## The window -/

theorem log_byte_window (s : State) (b : Nat) :
    (log_byte s b).1.window = (window_update s (b % 256)).window := by
  unfold log_byte rle_step drift_step
  simp only
  split <;> split <;> (try split) <;> (try split) <;> rfl

theorem log_byte_widx_update (s : State) (b : Nat) :
    (log_byte s b).1.widx = (window_update s (b % 256)).widx := by
  rw [log_byte_widx]
  rfl

theorem and_win_msk (x : Nat) : x &&& WIN_MSK = x % 32 :=
  Nat.and_pow_two_sub_one_eq_mod x 5

theorem window_inv_init : WindowInv log_init [] := by
  refine ⟨rfl, by decide, ?_⟩
  intro k hk
  simp at hk

theorem window_inv_update (s : State) (xs : List Nat) (b : Nat) (h : WindowInv s xs) :
    WindowInv (window_update s (b % 256)) (xs ++ [b]) := by
  obtain ⟨hw, hl, hv⟩ := h
  refine ⟨?_, ?_, ?_⟩
  · show (s.widx + 1) % 256 = _
    rw [hw]
    simp only [List.length_append, List.length_singleton]
    omega
  · show (s.window.set _ _).length = 32
    simp [hl]
  · intro k hk hk32
    simp only [List.length_append, List.length_singleton] at hk hk32
    have hidx : s.widx &&& WIN_MSK = xs.length % 32 := by
      rw [and_win_msk, hw]
      omega
    show (s.window.set (s.widx &&& WIN_MSK) (b % 256)).getD (k % 32) 0 = _
    rw [hidx]
    simp only [List.getD_eq_getElem?_getD]
    by_cases hkn : k = xs.length
    · subst hkn
      rw [List.getElem?_set_self (by rw [hl]; exact Nat.mod_lt _ (by decide)),
        List.getElem?_concat_length]
      rfl
    · have hlt : k < xs.length := by omega
      have hne : xs.length % 32 ≠ k % 32 := by omega
      rw [List.getElem?_set_ne hne, List.getElem?_append_left hlt]
      have := hv k hlt (by omega)
      simpa only [List.getD_eq_getElem?_getD] using this

theorem window_inv_step (s : State) (xs : List Nat) (b : Nat) (h : WindowInv s xs) :
    WindowInv (log_byte s b).1 (xs ++ [b]) := by
  have h1 := window_inv_update s xs b h
  unfold WindowInv at h1 ⊢
  rw [log_byte_window, log_byte_widx_update]
  exact h1

theorem window_inv_bytes (bs : List Nat) :
    ∀ (s : State) (xs : List Nat), WindowInv s xs → WindowInv (log_bytes s bs).1 (xs ++ bs) := by
  induction bs with
  | nil => intro s xs h; simpa [log_bytes] using h
  | cons b bs ih =>
    intro s xs h
    have h1 := ih (log_byte s b).1 (xs ++ [b]) (window_inv_step s xs b h)
    simpa [log_bytes] using h1

theorem getD_mod_of_bytes (xs : List Nat) (hb : ∀ x ∈ xs, x < 256) (k : Nat) :
    xs.getD k 0 % 256 = xs.getD k 0 := by
  apply Nat.mod_eq_of_lt
  simp only [List.getD_eq_getElem?_getD]
  by_cases hk : k < xs.length
  · rw [List.getElem?_eq_getElem hk]
    exact hb _ (List.getElem_mem hk)
  · rw [List.getElem?_eq_none (by omega)]
    decide

/-! ## The divergence score -/

/-- The masked-add `popcnt` counts the set bits of every byte. -/
theorem popcnt_spec : ∀ y < 256, popcnt y = hamming_weight y := by
  decide!

theorem hamming_weight_le (y : Nat) : hamming_weight y ≤ 8 := by
  unfold hamming_weight
  exact List.countP_le_length _

theorem foldl_mod_sum (f g : Nat → Nat) (l : List Nat) (hfg : ∀ i ∈ l, f i = g i)
    (hg : ∀ i ∈ l, g i ≤ 8) :
    ∀ a, a + 8 * l.length < 256 →
      l.foldl (fun d i => (d + f i) % 256) a = a + (l.map g).sum := by
  induction l with
  | nil => intro a _; simp
  | cons x l ih =>
    intro a ha
    have hx := hfg x (List.mem_cons_self _ _)
    have hgx := hg x (List.mem_cons_self _ _)
    simp only [List.length_cons] at ha
    simp only [List.foldl_cons, List.map_cons, List.sum_cons]
    rw [ih (fun i hi => hfg i (List.mem_cons_of_mem _ hi))
      (fun i hi => hg i (List.mem_cons_of_mem _ hi)) _ (by rw [hx, Nat.mod_eq_of_lt] <;> omega)]
    rw [hx, Nat.mod_eq_of_lt (by omega)]
    omega

theorem map_sum_le (g : Nat → Nat) (l : List Nat) (hg : ∀ i ∈ l, g i ≤ 8) :
    (l.map g).sum ≤ 8 * l.length := by
  induction l with
  | nil => simp
  | cons x l ih =>
    have hgx := hg x (List.mem_cons_self _ _)
    have := ih (fun i hi => hg i (List.mem_cons_of_mem _ hi))
    simp only [List.map_cons, List.sum_cons, List.length_cons]
    omega

theorem spec_divergence_le (xs : List Nat) : spec_divergence xs ≤ 128 := by
  unfold spec_divergence
  have := map_sum_le (fun i => hamming_weight (xs.getD (xs.length - 32 + i) 0 ^^^
    xs.getD (xs.length - 16 + i) 0)) (List.range 16) (fun i _ => hamming_weight_le _)
  simpa using this

/-- In a state holding the window invariant for `xs`, with the write index at
least 32, the divergence loop computes the reference score of `xs`. -/
theorem drift_score_eq (s : State) (xs : List Nat) (h : WindowInv s xs)
    (hb : ∀ x ∈ xs, x < 256) (hn : 32 ≤ xs.length % 256) :
    drift_score s = spec_divergence xs := by
  obtain ⟨hw, hl, hv⟩ := h
  unfold drift_score spec_divergence
  simp only [WIN, and_win_msk]
  have h16 : (32 : Nat) / 2 = 16 := by decide
  rw [h16]
  have hlen : 32 ≤ xs.length := by omega
  rw [foldl_mod_sum _ (fun i => hamming_weight (xs.getD (xs.length - 32 + i) 0 ^^^
    xs.getD (xs.length - 16 + i) 0)) (List.range 16) ?_ (fun i _ => hamming_weight_le _) 0
    (by simp)]
  · simp
  · intro i hi
    have hi16 : i < 16 := List.mem_range.mp hi
    have e1 : ((s.widx - 32) % 32 % 256 + i) % 32 = (xs.length - 32 + i) % 32 := by
      rw [hw]; omega
    have e2 : ((s.widx - 16) % 32 % 256 + i) % 32 = (xs.length - 16 + i) % 32 := by
      rw [hw]; omega
    rw [e1, e2, hv _ (by omega) (by omega), hv _ (by omega) (by omega),
      getD_mod_of_bytes xs hb, getD_mod_of_bytes xs hb]
    apply popcnt_spec
    have b1 : xs.getD (xs.length - 32 + i) 0 < 2 ^ 8 := by
      have := getD_mod_of_bytes xs hb (xs.length - 32 + i)
      omega
    have b2 : xs.getD (xs.length - 16 + i) 0 < 2 ^ 8 := by
      have := getD_mod_of_bytes xs hb (xs.length - 16 + i)
      omega
    exact Nat.xor_lt_two_pow b1 b2

/-! ## Round trip -/

theorem drifted_prev (s : State) (c : Nat) :
    (drift_step (window_update s c)).1.prev = s.prev := by
  rw [drift_step_prev]; rfl

theorem drifted_run (s : State) (c : Nat) :
    (drift_step (window_update s c)).1.run = s.run := by
  rw [drift_step_run]; rfl

theorem log_byte_absorb (s : State) (b : Nat) (h0 : (b % 256) ^^^ s.prev = 0)
    (hr : s.run < 7) :
    (log_byte s b).2 = (drift_step (window_update s (b % 256))).2 ∧
    (log_byte s b).1.prev = s.prev ∧ (log_byte s b).1.run = s.run + 1 := by
  have hm : (s.run + 1) % 256 = s.run + 1 := by omega
  unfold log_byte rle_step
  simp only [drifted_prev, drifted_run, h0, hr, RLE_MAX, and_self, if_true, List.append_nil, hm]

theorem log_byte_flush (s : State) (b : Nat)
    (h : ¬ ((b % 256) ^^^ s.prev = 0 ∧ s.run < 7)) :
    (log_byte s b).2 = (drift_step (window_update s (b % 256))).2 ++
      (if (b % 256) ^^^ s.prev > 0x1F then
        [((s.run <<< 5) ||| 0x1F) % 256, (b % 256) ^^^ s.prev]
       else [((s.run <<< 5) ||| (((b % 256) ^^^ s.prev) &&& 0x1F)) % 256]) ∧
    (log_byte s b).1.prev = b % 256 ∧ (log_byte s b).1.run = 0 := by
  unfold log_byte rle_step
  simp only [drifted_prev, drifted_run, RLE_MAX, h, if_false]
  split <;> exact ⟨rfl, rfl, rfl⟩

theorem flush_log_absorb (s : State) (b : Nat) (bs : List Nat)
    (h0 : (b % 256) ^^^ s.prev = 0) (hr : s.run < 7) :
    flush_log s (b :: bs) = flush_log (log_byte s b).1 bs := by
  simp only [flush_log, drifted_prev, drifted_run, h0, hr, RLE_MAX, and_self, if_true]

theorem flush_log_flush (s : State) (b : Nat) (bs : List Nat)
    (h : ¬ ((b % 256) ^^^ s.prev = 0 ∧ s.run < 7)) :
    flush_log s (b :: bs) = (s.run, (b % 256) ^^^ s.prev) :: flush_log (log_byte s b).1 bs := by
  simp only [flush_log, drifted_prev, drifted_run, RLE_MAX, h, if_false]

theorem decode_unbounded_drift (s : State) (rest : List Nat) (prev : Nat) :
    decode_unbounded ((drift_step s).2 ++ rest) prev = decode_unbounded rest prev := by
  rcases drift_step_out s with h | h
  · rw [h]; rfl
  · rw [h]
    exact decode_unbounded_marker rest prev

theorem xor_self_right (c p : Nat) : p ^^^ (c ^^^ p) = c := by
  rw [Nat.xor_comm c p, Nat.xor_cancel_left]

theorem token_ne_marker :
    ∀ r < 8, ∀ d < 32, ¬ (r = 3 ∧ d = 30) → (r <<< 5 ||| d) % 256 ≠ 0x7E := by
  decide

/-- Decoding what the encoder emits from a state with `run <= 7`: the pending
run, then the input bytes, provided no flush has delta 31 and none packs the
marker value. -/
theorem roundtrip_from (bs : List Nat) :
    ∀ s : State, s.run ≤ 7 → (∀ b ∈ bs, b < 256) →
      (∀ e ∈ flush_log s bs, e.2 ≠ 31 ∧ ¬ (e.1 = 3 ∧ e.2 = 30)) →
      decode_unbounded ((log_bytes s bs).2 ++ log_flush (log_bytes s bs).1) s.prev =
        List.replicate s.run s.prev ++ bs := by
  induction bs with
  | nil =>
    intro s hr _ _
    simp only [log_bytes, List.nil_append, List.append_nil]
    unfold log_flush
    by_cases h0 : s.run > 0
    · simp only [h0, if_true]
      have hr1 : s.run - 1 < 8 := by omega
      obtain ⟨f1, f2, _⟩ := token_fields (s.run - 1) hr1 0 (by decide)
      simp only [Nat.or_zero] at f1 f2
      have hne : ((s.run - 1) <<< 5) % 256 ≠ 0x7E := by
        intro h; rw [h] at f2; revert f2; decide
      have hd : ((s.run - 1) <<< 5) % 256 &&& 0x1F ≠ 0x1F := by
        rw [f2]; decide
      rw [decode_unbounded_plain _ [] s.prev hne hd, f1, f2]
      have : s.run - 1 + 1 = s.run := by omega
      simp [decode_unbounded, token_bytes, this]
    · have : s.run = 0 := by omega
      simp [h0, this, decode_unbounded]
  | cons b bs ih =>
    intro s hr hb hf
    have hb256 : b % 256 = b := Nat.mod_eq_of_lt (hb b (List.mem_cons_self _ _))
    have hbs : ∀ x ∈ bs, x < 256 := fun x hx => hb x (List.mem_cons_of_mem _ hx)
    have hrun := log_byte_run_le s b
    simp only [log_bytes, List.append_assoc]
    by_cases hab : (b % 256) ^^^ s.prev = 0 ∧ s.run < 7
    · obtain ⟨o1, o2, o3⟩ := log_byte_absorb s b hab.1 hab.2
      rw [flush_log_absorb s b bs hab.1 hab.2] at hf
      have hi := ih (log_byte s b).1 hrun hbs hf
      rw [o2, o3] at hi
      rw [o1, decode_unbounded_drift, hi]
      have hbp : b = s.prev := by
        have := Nat.xor_eq_zero.mp hab.1
        omega
      rw [hbp, List.replicate_succ']
      simp
    · obtain ⟨o1, o2, o3⟩ := log_byte_flush s b hab
      rw [flush_log_flush s b bs hab] at hf
      have hi := ih (log_byte s b).1 hrun hbs (fun e he => hf e (List.mem_cons_of_mem _ he))
      rw [o2, o3, hb256] at hi
      simp only [List.replicate_zero, List.nil_append] at hi
      have hcond := hf _ (List.mem_cons_self _ _)
      simp only at hcond
      have hr8 : s.run < 8 := by omega
      rw [o1, List.append_assoc, decode_unbounded_drift]
      rw [hb256] at hcond hab ⊢
      by_cases hbig : b ^^^ s.prev > 0x1F
      · simp only [hbig, if_true, List.cons_append, List.nil_append]
        obtain ⟨f1, f2, _⟩ := token_fields s.run hr8 0x1F (by decide)
        have hne : (s.run <<< 5 ||| 0x1F) % 256 ≠ 0x7E :=
          token_ne_marker s.run hr8 0x1F (by decide) (by omega)
        rw [decode_unbounded_escape _ _ _ s.prev hne f2, f1]
        have hnz : b ^^^ s.prev ≠ 0 := by omega
        simp only [token_bytes, token_prev, hnz, ne_eq, not_false_eq_true, if_true,
          xor_self_right, hi]
        simp
      · simp only [hbig, if_false, List.cons_append, List.nil_append]
        have hd32 : b ^^^ s.prev < 32 := by omega
        have hand : (b ^^^ s.prev) &&& 0x1F = b ^^^ s.prev := by
          have := Nat.and_pow_two_sub_one_eq_mod (b ^^^ s.prev) 5
          simp only [Nat.reducePow, Nat.add_one_sub_one] at this
          rw [this]
          exact Nat.mod_eq_of_lt hd32
        rw [hand]
        obtain ⟨f1, f2, _⟩ := token_fields s.run hr8 _ hd32
        have hne : (s.run <<< 5 ||| (b ^^^ s.prev)) % 256 ≠ 0x7E :=
          token_ne_marker s.run hr8 _ hd32 (by omega)
        have hd : (s.run <<< 5 ||| (b ^^^ s.prev)) % 256 &&& 0x1F ≠ 0x1F := by
          rw [f2]; exact hcond.1
        rw [decode_unbounded_plain _ _ s.prev hne hd, f1, f2]
        by_cases hnz : b ^^^ s.prev = 0
        · have hbp : b = s.prev := Nat.xor_eq_zero.mp hnz
          have hr7 : s.run = 7 := by
            have : ¬ s.run < 7 := fun h => hab ⟨hnz, h⟩
            omega
          simp only [token_bytes, token_prev, hnz, ne_eq, not_true_eq_false, if_false]
          rw [hbp] at hi ⊢
          rw [hi, List.replicate_succ']
          simp
        · simp only [token_bytes, token_prev, hnz, ne_eq, not_false_eq_true, if_true,
            xor_self_right, hi]
          simp

/-! ## Window, divergence and round-trip claims -/

/-- C12 (window invariant): after `log_init` and `n >= 32` calls of `log_byte`
on the bytes `x[0 .. n-1]`, the window has 32 slots and slot `(n-1-j) mod 32`
holds `x[n-1-j]` for every `j < 32`, whatever `n` is (also past the wrap of the
8-bit write index). -/
theorem window_invariant (bs : List Nat) (j : Nat) (hb : ∀ b ∈ bs, b < 256)
    (hn : 32 ≤ bs.length) (hj : j < 32) :
    (log_bytes log_init bs).1.window.length = 32 ∧
    (log_bytes log_init bs).1.window.getD ((bs.length - 1 - j) % 32) 0 =
      bs.getD (bs.length - 1 - j) 0 := by
  have h := window_inv_bytes bs log_init [] window_inv_init
  simp only [List.nil_append] at h
  obtain ⟨_, hl, hv⟩ := h
  refine ⟨hl, ?_⟩
  rw [hv (bs.length - 1 - j) (by omega) (by omega), getD_mod_of_bytes bs hb]

/-- C12 on 300 bytes (`0 .. 255` then `0 .. 43`), past the index wrap, at
`j = 5`. -/
theorem window_invariant_witness :
    (log_bytes log_init (List.range 256 ++ List.range 44)).1.window.length = 32 ∧
    (log_bytes log_init (List.range 256 ++ List.range 44)).1.window.getD
        (((List.range 256 ++ List.range 44).length - 1 - 5) % 32) 0 =
      (List.range 256 ++ List.range 44).getD
        ((List.range 256 ++ List.range 44).length - 1 - 5) 0 :=
  window_invariant (List.range 256 ++ List.range 44) 5 (by decide!) (by decide!) (by decide)

/-- C18 (divergence score): when the call for byte `b`, after the bytes `xs`,
evaluates drift (the write index, the byte count modulo 256, is at least 32),
the loop's `drift` is the reference score of the input so far: the sum over
`i < 16` of the Hamming weight of `x[n-32+i] XOR x[n-16+i]`.  That sum is at
most 128, so the 8-bit accumulator does not overflow, and `popcnt` is the true
bit count of every byte. -/
theorem drift_equals_reference (xs : List Nat) (b : Nat) (hb : ∀ x ∈ xs ++ [b], x < 256)
    (hn : 32 ≤ (xs ++ [b]).length % 256) :
    drift_score (window_update (log_bytes log_init xs).1 (b % 256)) =
      spec_divergence (xs ++ [b]) ∧
    spec_divergence (xs ++ [b]) ≤ 128 ∧
    (∀ y < 256, popcnt y = hamming_weight y) := by
  have h0 := window_inv_bytes xs log_init [] window_inv_init
  simp only [List.nil_append] at h0
  have h1 := window_inv_update _ xs b h0
  exact ⟨drift_score_eq _ _ h1 hb hn, spec_divergence_le _, popcnt_spec⟩

/-- C18 at the 300th byte of `0 .. 255, 0 .. 43`, past the index wrap. -/
theorem drift_equals_reference_witness :
    drift_score (window_update (log_bytes log_init (List.range 256 ++ List.range 43)).1
        (43 % 256)) =
      spec_divergence (List.range 256 ++ List.range 43 ++ [43]) ∧
    spec_divergence (List.range 256 ++ List.range 43 ++ [43]) ≤ 128 ∧
    (∀ y < 256, popcnt y = hamming_weight y) :=
  drift_equals_reference (List.range 256 ++ List.range 43) 43 (by decide!) (by decide!)

/-- C17 (exact round-trip domain): for input bytes (each below 256) such that no
`log_byte` flush has delta 31 and none has run 3 with delta 30, `decode` on the
complete emitted stream, markers and `log_flush` output included, with a
capacity of at least the input length (stream length and capacity within 16
bits), returns the input length and writes the input bytes. -/
theorem roundtrip_exact_domain (bytes : List Nat) (cap : Nat)
    (hb : ∀ b ∈ bytes, b < 256)
    (hf : ∀ e ∈ flush_log log_init bytes, e.2 ≠ 31 ∧ ¬ (e.1 = 3 ∧ e.2 = 30))
    (hc : bytes.length ≤ cap) (_hlen : (encode bytes).length < 65536) (_hcap : cap < 65536) :
    decode (encode bytes) cap = (bytes.length : Int) ∧
    decode_buf (encode bytes) cap = some bytes := by
  have h := roundtrip_from bytes log_init (by decide) hb hf
  have hu : decode_unbounded (encode bytes) 0 = bytes := by
    unfold encode
    simpa [log_init] using h
  rw [decode_eq, decode_buf_eq, hu]
  simp [hc]

/-- C17 on the 34 bytes `0xFF` x 16, `0x00` x 13, `0x01` x 5, whose stream
holds two markers, with the 256-byte buffer of the tests. -/
theorem roundtrip_exact_domain_witness :
    decode (encode (List.replicate 16 0xFF ++ List.replicate 13 0 ++ List.replicate 5 1)) 256 =
      ((List.replicate 16 0xFF ++ List.replicate 13 0 ++ List.replicate 5 1).length : Int) ∧
    decode_buf (encode (List.replicate 16 0xFF ++ List.replicate 13 0 ++ List.replicate 5 1))
        256 =
      some (List.replicate 16 0xFF ++ List.replicate 13 0 ++ List.replicate 5 1) :=
  roundtrip_exact_domain (List.replicate 16 0xFF ++ List.replicate 13 0 ++ List.replicate 5 1)
    256 (by decide!) (by decide!) (by decide!) (by decide!) (by decide)

/-! ## Constant input -/

theorem spec_divergence_constant (v n : Nat) (hn : 32 ≤ n) :
    spec_divergence (List.replicate n v) = 0 := by
  unfold spec_divergence
  have hmap : (List.range 16).map (fun i =>
      hamming_weight ((List.replicate n v).getD ((List.replicate n v).length - 32 + i) 0 ^^^
        (List.replicate n v).getD ((List.replicate n v).length - 16 + i) 0)) =
      (List.range 16).map (fun _ => 0) := by
    apply List.map_congr_left
    intro i hi
    have hi16 : i < 16 := List.mem_range.mp hi
    simp only [List.length_replicate, List.getD_eq_getElem?_getD]
    rw [List.getElem?_replicate_of_lt (by omega), List.getElem?_replicate_of_lt (by omega)]
    simp only [Option.getD_some, Nat.xor_self]
    decide
  rw [hmap]
  simp

/-- On a constant input the drift trigger stays silent. -/
theorem drift_silent_on_constant (s : State) (v k : Nat) (hv : v < 256)
    (h : WindowInv s (List.replicate k v)) :
    (drift_step (window_update s (v % 256))).2 = [] := by
  have h1 := window_inv_update s _ v h
  have hrep : List.replicate k v ++ [v] = List.replicate (k + 1) v := by
    rw [List.replicate_succ']
  rw [hrep] at h1
  unfold drift_step
  split
  · rename_i hw
    have hwk : (window_update s (v % 256)).widx = (k + 1) % 256 := by
      rw [h1.1, List.length_replicate]
    have hn : 32 ≤ (List.replicate (k + 1) v).length % 256 := by
      rw [List.length_replicate, ← hwk]
      exact hw
    have hb : ∀ x ∈ List.replicate (k + 1) v, x < 256 := by
      intro x hx
      rw [List.eq_of_mem_replicate hx]
      exact hv
    have hk32 : 32 ≤ k + 1 := by
      rw [List.length_replicate] at hn
      omega
    rw [drift_score_eq _ _ h1 hb hn, spec_divergence_constant v (k + 1) hk32]
    simp [STUFF_TH]
  · rfl

/-- Feeding `m` more copies of `prev`: one token `0xE0` each time the run
counter passes 7, and no other output. -/
theorem log_bytes_constant (v : Nat) (hv : v < 256) (m : Nat) :
    ∀ (s : State) (k : Nat), WindowInv s (List.replicate k v) → s.prev = v → s.run ≤ 7 →
      (log_bytes s (List.replicate m v)).2 = List.replicate ((s.run + m) / 8) 0xE0 ∧
      (log_bytes s (List.replicate m v)).1.run = (s.run + m) % 8 := by
  induction m with
  | zero =>
    intro s k _ _ hr
    have h1 : s.run / 8 = 0 := by omega
    have h2 : s.run % 8 = s.run := by omega
    simp [log_bytes, h1, h2]
  | succ m ih =>
    intro s k hw hp hr
    have hv256 : v % 256 = v := Nat.mod_eq_of_lt hv
    have hd0 : (v % 256) ^^^ s.prev = 0 := by rw [hv256, hp, Nat.xor_self]
    have hw1 : WindowInv (log_byte s v).1 (List.replicate (k + 1) v) := by
      have := window_inv_step s _ v hw
      rwa [← List.replicate_succ'] at this
    have hsil := drift_silent_on_constant s v k hv hw
    simp only [List.replicate_succ, log_bytes]
    by_cases hr7 : s.run < 7
    · obtain ⟨o1, o2, o3⟩ := log_byte_absorb s v hd0 hr7
      have hi := ih (log_byte s v).1 (k + 1) hw1 (by rw [o2, hp]) (by rw [o3]; omega)
      rw [o3] at hi
      rw [o1, hsil, hi.1, hi.2]
      have e1 : (s.run + 1 + m) / 8 = (s.run + (m + 1)) / 8 := by
        rw [Nat.add_right_comm, Nat.add_assoc]
      have e2 : (s.run + 1 + m) % 8 = (s.run + (m + 1)) % 8 := by
        rw [Nat.add_right_comm, Nat.add_assoc]
      simp [e1, e2]
    · have hab : ¬ ((v % 256) ^^^ s.prev = 0 ∧ s.run < 7) := fun h => hr7 h.2
      obtain ⟨o1, o2, o3⟩ := log_byte_flush s v hab
      have hi := ih (log_byte s v).1 (k + 1) hw1 (by rw [o2, hv256]) (by rw [o3]; omega)
      rw [o3] at hi
      have hrun : s.run = 7 := by omega
      rw [o1, hsil, hi.1, hi.2, hd0, hrun]
      have e1 : (7 + (m + 1)) / 8 = (0 + m) / 8 + 1 := by omega
      have e2 : (7 + (m + 1)) % 8 = (0 + m) % 8 := by omega
      rw [e1, e2, List.replicate_succ]
      simp

/-- The stream for `m + 1` copies of a non-zero byte from `log_init`. -/
theorem encode_constant (v m : Nat) (h0 : 0 < v) (hv : v < 256) :
    encode (List.replicate (m + 1) v) =
      (if v > 0x1F then [0x1F, v] else [v]) ++ List.replicate (m / 8) 0xE0 ++
        (if m % 8 = 0 then [] else [(m % 8 - 1) <<< 5]) := by
  have hv256 : v % 256 = v := Nat.mod_eq_of_lt hv
  have hab : ¬ ((v % 256) ^^^ log_init.prev = 0 ∧ log_init.run < 7) := by
    intro h
    have h1 : v ^^^ 0 = 0 := by
      have := h.1
      rwa [hv256] at this
    rw [Nat.xor_zero] at h1
    omega
  obtain ⟨o1, o2, o3⟩ := log_byte_flush log_init v hab
  have hsil := drift_silent_on_constant log_init v 0 hv window_inv_init
  have hw1 : WindowInv (log_byte log_init v).1 (List.replicate 1 v) :=
    window_inv_step log_init [] v window_inv_init
  obtain ⟨c1, c2⟩ := log_bytes_constant v hv m (log_byte log_init v).1 1 hw1
    (by rw [o2, hv256]) (by rw [o3]; omega)
  rw [o3] at c1 c2
  simp only [Nat.zero_add] at c1 c2
  unfold encode
  simp only [List.replicate_succ, log_bytes]
  rw [o1, hsil, c1]
  unfold log_flush
  rw [c2, hv256]
  have hfirst : (if v ^^^ log_init.prev > 0x1F then
        [((log_init.run <<< 5) ||| 0x1F) % 256, v ^^^ log_init.prev]
      else [((log_init.run <<< 5) ||| ((v ^^^ log_init.prev) &&& 0x1F)) % 256]) =
      (if v > 0x1F then [0x1F, v] else [v]) := by
    have hx : v ^^^ log_init.prev = v := Nat.xor_zero v
    rw [hx]
    by_cases hbig : v > 0x1F
    · simp only [hbig, if_true]
      rfl
    · simp only [hbig, if_false]
      have hd : v < 32 := by omega
      have hand : v &&& 0x1F = v := by
        have := Nat.and_pow_two_sub_one_eq_mod v 5
        simp only [Nat.reducePow, Nat.add_one_sub_one] at this
        rw [this]
        exact Nat.mod_eq_of_lt hd
      rw [hand]
      have := (token_fields 0 (by decide) v hd).2.2
      have hz : log_init.run = 0 := rfl
      rw [hz]
      simp only [Nat.zero_shiftLeft, Nat.zero_or] at this ⊢
      rw [this]
  rw [hfirst]
  by_cases hm : m % 8 = 0
  · simp [hm]
  · have hpos : m % 8 > 0 := by omega
    have hlt : m % 8 - 1 < 8 := by omega
    have := (token_fields (m % 8 - 1) hlt 0 (by decide)).2.2
    simp only [Nat.or_zero] at this
    simp [hm, hpos, this]

/-- C15 (as stated, fails): ten bytes `0xAA` give two run-only tokens after the
escape sequence (`0xE0` and `0x00`), not `ceil((10 - 8) / 8) = 1`; and the
single byte `0x01` is emitted as the one-byte token `0x01`, not as an escape
sequence. -/
theorem run_cost_formula_fails :
    encode (List.replicate 10 0xAA) = [0x1F, 0xAA, 0xE0, 0x00] ∧
    ((encode (List.replicate 10 0xAA)).drop 2).countP (fun t => t &&& 0x1F = 0) = 2 ∧
    (10 - 8 + 7) / 8 = 1 ∧
    encode [0x01] = [0x01] := by
  decide

/-- C15 (amended): `N = m + 1` copies of a byte `v`, `0 < v < 256`, encoded
from `log_init` and flushed, give the unit of the first byte (the escape
sequence `[0x1F, v]` when `v > 0x1F`, the single token `v` otherwise), then
`m / 8` forced-flush tokens `0xE0`, then the `log_flush` token
`((m mod 8) - 1) << 5` when `m mod 8` is not 0.  The tokens after the first
unit all have delta field 0 and there are `ceil(m / 8)` of them. -/
theorem bounded_run_cost (v m : Nat) (h0 : 0 < v) (hv : v < 256) :
    encode (List.replicate (m + 1) v) =
      (if v > 0x1F then [0x1F, v] else [v]) ++ List.replicate (m / 8) 0xE0 ++
        (if m % 8 = 0 then [] else [(m % 8 - 1) <<< 5]) ∧
    (List.replicate (m / 8) 0xE0 ++
        (if m % 8 = 0 then [] else [(m % 8 - 1) <<< 5])).length = (m + 7) / 8 ∧
    (∀ t ∈ List.replicate (m / 8) 0xE0 ++ (if m % 8 = 0 then [] else [(m % 8 - 1) <<< 5]),
      t &&& 0x1F = 0) := by
  refine ⟨encode_constant v m h0 hv, ?_, ?_⟩
  · by_cases hm : m % 8 = 0
    · simp only [hm, if_true, List.append_nil, List.length_replicate]
      omega
    · simp only [hm, if_false, List.length_append, List.length_replicate,
        List.length_singleton]
      omega
  · intro t ht
    rw [List.mem_append] at ht
    rcases ht with ht | ht
    · rw [List.eq_of_mem_replicate ht]
      decide
    · by_cases hm : m % 8 = 0
      · simp [hm] at ht
      · simp only [hm, if_false, List.mem_singleton] at ht
        have hlt : m % 8 - 1 < 8 := by omega
        obtain ⟨_, f2, f3⟩ := token_fields (m % 8 - 1) hlt 0 (by decide)
        simp only [Nat.or_zero] at f2 f3
        rw [ht, ← f3]
        exact f2

/-- The amended C15 for ten bytes `0xAA` (scenario A). -/
theorem bounded_run_cost_witness :
    encode (List.replicate (9 + 1) 0xAA) =
      (if 0xAA > 0x1F then [0x1F, 0xAA] else [0xAA]) ++ List.replicate (9 / 8) 0xE0 ++
        (if 9 % 8 = 0 then [] else [(9 % 8 - 1) <<< 5]) :=
  (bounded_run_cost 0xAA 9 (by decide) (by decide)).1

end MicroRLE
